import Mathlib

set_option linter.unusedVariables false

/-!
Shallow embedding of `qasm2stim.cpp`, a single-pass OpenQASM 2 → Stim text
translator.  The input file is modelled as a `List Char`; the C cursor
(`char* from`) is modelled as the remaining suffix of that list.  Reads past
the end of the buffer are modelled as reading `'\0'` (`List.headD _ NUL`),
matching the zero-padded `mmap`/`calloc` ingestion of the original.  Fatal
`LOGERROR`+`exit` calls are modelled as `Except.error`; the translator writes
the output file only after a complete successful pass, so an error carries no
output.  The C code computes the version value in IEEE doubles; here the
value `n * 10^(-k)` is kept exactly as the pair `(n, k)` (for version
literals of ordinary length the double comparison against 2.0 agrees with the
exact comparison `n = 2 * 10^k`).  Loops whose C form runs on pointer
progress are given explicit fuel; the driver supplies `input.length + 1`
fuel, which is never exhausted because every iteration consumes at least one
input character.
-/

deriving instance DecidableEq for Except

def NUL : Char := Char.ofNat 0

/-- C `isDigit`: `(ch ^ 48) <= 9`. -/
def isDigitC (c : Char) : Bool := c.toNat ^^^ 48 ≤ 9

/-- C `isSpace`: `(ch >= 9 && ch <= 13) || ch == 32`. -/
def isSpaceC (c : Char) : Bool := (9 ≤ c.toNat && c.toNat ≤ 13) || c.toNat == 32

/-- C `isalpha` in the default locale: ASCII letters. -/
def isAlphaC (c : Char) : Bool :=
  (65 ≤ c.toNat && c.toNat ≤ 90) || (97 ≤ c.toNat && c.toNat ≤ 122)

/-- Characters accepted in a gate mnemonic: `isalpha(c) || c == '_'`. -/
def isGateChar (c : Char) : Bool := isAlphaC c || c == '_'

/-- C `eatWS`: advance the cursor past whitespace. -/
def eatWS (s : List Char) : List Char := s.dropWhile isSpaceC

/-- C `eatLine`: `while (*str) if (*str++ == '\n') return;` — skip up to and
including the next newline; stops (without consuming) at a NUL byte and at
end of buffer. -/
def eatLine : List Char → List Char
  | [] => []
  | c :: rest => if c = NUL then c :: rest else if c = '\n' then rest else eatLine rest

inductive Err where
  | MalformedVersion : Char → Err
  | MissingSemicolon : Err
  | MalformedQubitRef : String → Char → Err
  | GateNameTooLong : Err
  | UnknownGate : List Char → Err
  | UnsupportedVersion : Nat → Nat → Err
  | OutOfFuel : Err
deriving DecidableEq

/-- Body of C `toFloat`'s `while (ch != ';')` loop.  The accumulator `n` is
the digit accumulator (kept exactly as a `Nat`; in C it is an integer-valued
double) and `k` counts the characters seen after the decimal point (each of
which divides `f` by 10, so `f = 10^(-k)`).  In C, reaching the end of the
buffer without a `';'` runs the scan past the buffer (undefined behavior);
that case is modelled as `MissingSemicolon`. -/
def floatLoop : List Char → Nat → Nat → Bool → Except Err (Nat × Nat × List Char)
  | [], _, _, _ => .error .MissingSemicolon
  | c :: rest, n, k, isPoint =>
    if c = ';' then .ok (n, k, c :: rest)
    else
      floatLoop rest
        (if isDigitC c then n * 10 + (c.toNat - 48) else n)
        (if isPoint then k + 1 else k)
        (if isPoint then true else c = '.')

/-- C `toFloat`: skip whitespace, require a digit, then accumulate until the
statement terminator `';'` (which is not consumed). -/
def toFloat (s : List Char) : Except Err (Nat × Nat × List Char) :=
  let s1 := eatWS s
  if isDigitC (s1.headD NUL) then floatLoop s1 0 0 false
  else .error (.MalformedVersion (s1.headD NUL))

/-- C `toQubit`: expect the literal pattern `q[<digits>]`; return the digit
characters verbatim together with the rest of the input after the `']'`. -/
def toQubit (s : List Char) : Except Err (List Char × List Char) :=
  let s1 := eatWS s
  if s1.headD NUL = 'q' then
    let s2 := s1.tail
    if s2.headD NUL = '[' then
      let s3 := s2.tail
      if isDigitC (s3.headD NUL) then
        let ds := s3.takeWhile isDigitC
        let s4 := s3.dropWhile isDigitC
        if s4.headD NUL = ']' then .ok (ds, s4.tail)
        else .error (.MalformedQubitRef "]" (s4.headD NUL))
      else .error (.MalformedQubitRef "digit" (s3.headD NUL))
    else .error (.MalformedQubitRef "[" (s2.headD NUL))
  else .error (.MalformedQubitRef "q" (s1.headD NUL))

/-- Character comparison loop of C `match`: walks `ref` and compares against
`inp` (reads past the end of `inp` see `'\0'`, which never equals a `ref`
character). -/
def matchChars : List Char → List Char → Bool
  | _, [] => true
  | inp, r :: rs =>
    match inp with
    | [] => false
    | i :: is => if r = i then matchChars is rs else false

/-- C `match(in, size, ref)`: `false` for an empty `ref`; otherwise `ref`
must appear verbatim at the start of `in` and `size` must equal `ref`'s
length. -/
def matchKw (inp : List Char) (size : Nat) (ref : List Char) : Bool :=
  if ref = [] then false else matchChars inp ref && size == ref.length

/-- The 13 QASM gate mnemonics (`GATE_QASM` in the C source). -/
def GATE_QASM : List (List Char) :=
  ["i".toList, "x".toList, "y".toList, "z".toList, "h".toList, "s".toList,
   "sdg".toList, "cx".toList, "cy".toList, "cz".toList, "swap".toList,
   "iswap".toList, "measure".toList]

/-- The 13 Stim gate mnemonics (`GATE_STIM` in the C source). -/
def GATE_STIM : List (List Char) :=
  ["I".toList, "X".toList, "Y".toList, "Z".toList, "H".toList, "S".toList,
   "S_DAG".toList, "CX".toList, "CY".toList, "CZ".toList, "SWAP".toList,
   "ISWAP".toList, "M".toList]

/-- Inner comparison of `Circuit::translate_gate`: walk `ref` until its end
or the first mismatch with `g` (positions past the end of `g` read `'\0'`,
which never equals a `ref` character), returning the number of matched
characters. -/
def scanLen : List Char → List Char → Nat
  | [], _ => 0
  | _ :: _, [] => 0
  | r :: rs, i :: is => if r = i then scanLen rs is + 1 else 0

/-- Linear scan of `Circuit::translate_gate`: return the index of the first
catalog entry whose comparison count equals the length of `g`. -/
def findGate : List (List Char) → List Char → Option Nat
  | [], _ => none
  | r :: rs, g =>
    if scanLen r g = g.length then some 0 else (findGate rs g).map (· + 1)

/-- C `Circuit::translate_gate`: resolve a mnemonic through the catalog or
fail with the unknown-gate error carrying the offending text. -/
def translate_gate (g : List Char) : Except Err Nat :=
  match findGate GATE_QASM g with
  | some i => .ok i
  | none => .error (.UnknownGate g)

def arrowChars : List Char := ['-', '>']

/-- Maximum mnemonic length (`MAX_GATENAME_LEN`). -/
def MAX_GATENAME_LEN : Nat := 16

/-- Line terminator emitted by the Linux build (`'\r'` then `'\n'`). -/
def crlf : List Char := ['\r', '\n']

/-- Operand loop of `Circuit::read_gate`:
`while ((*from != ';') && !match(from, 2, "->") && from < eof)` — consume one
character (emitting a space if it was a comma), then parse one qubit
reference, copying its digits to the output, then skip whitespace.  Each
iteration consumes at least one character, so fuel `rem.length + 1` (supplied
by `read_gate`) is never exhausted. -/
def gate_inputs : Nat → List Char → List Char → Except Err (List Char × List Char)
  | 0, _, _ => .error .OutOfFuel
  | fuel + 1, rem, out =>
    if rem.headD NUL = ';' then .ok (rem, out)
    else if matchKw rem 2 arrowChars then .ok (rem, out)
    else if rem = [] then .ok (rem, out)
    else
      let out1 := if rem.headD NUL = ',' then out ++ [' '] else out
      match toQubit rem.tail with
      | .error e => .error e
      | .ok (ds, rem2) => gate_inputs fuel (eatWS rem2) (out1 ++ ds)

/-- C `Circuit::read_gate`: read a maximal alphabetic/underscore run as the
mnemonic (error at the 16-character cap), resolve it through the catalog,
apply the run-compaction emission policy against `prev` (the last emitted
Stim mnemonic, empty at start), copy the operand digits, consume the `';'`
terminator or discard the rest of the line after a `->` marker, and return
the new cursor, the new `prev`, and the extended output. -/
def read_gate (rem prev out : List Char) :
    Except Err (List Char × List Char × List Char) :=
  let r := eatWS rem
  let g := r.takeWhile isGateChar
  if MAX_GATENAME_LEN ≤ g.length then .error .GateNameTooLong
  else
    match translate_gate g with
    | .error e => .error e
    | .ok idx =>
      let gs := GATE_STIM.getD idx []
      let r1 := r.drop g.length
      let out1 :=
        if matchKw gs gs.length prev then out ++ [' ']
        else (if prev.headD NUL = NUL then out else out ++ crlf) ++ gs ++ [' ']
      match gate_inputs (r1.length + 1) r1 out1 with
      | .error e => .error e
      | .ok (r2, out2) =>
        let r3 :=
          if r2.headD NUL = ';' then r2.tail
          else if matchKw r2 2 arrowChars then eatLine r2
          else r2
        .ok (r3, gs, out2)

def kwOPENQASM : List Char := ['O', 'P', 'E', 'N', 'Q', 'A', 'S', 'M']
def kwqreg : List Char := ['q', 'r', 'e', 'g']
def kwcreg : List Char := ['c', 'r', 'e', 'g']
def kwinclude : List Char := ['i', 'n', 'c', 'l', 'u', 'd', 'e']
def kwgate : List Char := ['g', 'a', 't', 'e']

/-- Main loop of `Circuit::to_stim` (Linux build): while the cursor is before
`eof`, skip whitespace, stop at a NUL byte, dispatch on the directive
keywords in source order, and otherwise translate a gate statement.  The
state is `(prev, out, mq)`: last emitted Stim mnemonic, output buffer, and
the `max_qubits` digit text.  Each iteration consumes at least one character,
so the driver's fuel `input.length + 1` is never exhausted. -/
def to_stim_loop : Nat → List Char → List Char → List Char → List Char →
    Except Err (List Char × List Char)
  | 0, _, _, _, _ => .error .OutOfFuel
  | fuel + 1, rem, prev, out, mq =>
    if rem = [] then .ok (out, mq)
    else
      let r := eatWS rem
      if r.headD NUL = NUL then .ok (out, mq)
      else if matchKw r 8 kwOPENQASM then
        match toFloat (r.drop 8) with
        | .error e => .error e
        | .ok (n, k, r1) =>
          if n = 2 * 10 ^ k then to_stim_loop fuel (eatLine r1) prev out mq
          else .error (.UnsupportedVersion n k)
      else if matchKw r 4 kwqreg then
        match toQubit (r.drop 4) with
        | .error e => .error e
        | .ok (ds, r1) =>
          to_stim_loop fuel (eatLine r1) prev (out ++ '#' :: (ds ++ crlf)) ds
      else if matchKw r 4 kwcreg then to_stim_loop fuel (eatLine r) prev out mq
      else if matchKw r 7 kwinclude then to_stim_loop fuel (eatLine r) prev out mq
      else if matchKw r 4 kwgate then to_stim_loop fuel (eatLine r) prev out mq
      else
        match read_gate r prev out with
        | .error e => .error e
        | .ok (r1, prev1, out1) => to_stim_loop fuel r1 prev1 out1 mq

/-- C `Circuit::to_stim` on an in-memory buffer: run the main loop starting
from empty `prev`/output/`max_qubits`, then append the final line terminator.
The result is the pair (output bytes, qubit-count text). -/
def to_stim (input : List Char) : Except Err (List Char × List Char) :=
  match to_stim_loop (input.length + 1) input [] [] [] with
  | .error e => .error e
  | .ok (out, mq) => .ok (out ++ crlf, mq)

/-- The five directive keywords checked (in source order) by the main loop. -/
def kwNames : List (List Char) := [kwOPENQASM, kwqreg, kwcreg, kwinclude, kwgate]

/-- Executable check that `a` occurs verbatim at the start of `b`. -/
def isPrefB : List Char → List Char → Bool
  | [], _ => true
  | _ :: _, [] => false
  | a :: as, b :: bs => a == b && isPrefB as bs

/-- Source text of one single-operand gate statement, `<g> q[<d>];`. -/
def mkStmt (g d : List Char) : List Char := g ++ ' ' :: 'q' :: '[' :: (d ++ [']', ';'])

/-- Source text of a sequence of consecutive single-operand gate statements. -/
def buildStmts (l : List (List Char × List Char)) : List Char :=
  (l.map (fun p => mkStmt p.1 p.2)).join

/-- A well-formed QASM mnemonic `g` resolving to the Stim mnemonic `s`:
nonempty, made of mnemonic characters, under the length cap, not mistakable
for a directive keyword at the start of a statement `g ++ " ..."`, and
resolved by the catalog to `s` (a Stim name, hence starting with a non-NUL
character). -/
def goodGate (g s : List Char) : Prop :=
  g ≠ [] ∧ g.all isGateChar = true ∧ g.length < MAX_GATENAME_LEN ∧
  (kwNames.all fun kw => !isPrefB (kw.take (g.length + 1)) (g ++ [' '])) = true ∧
  (translate_gate g).toOption.map (fun i => GATE_STIM.getD i []) = some s ∧
  s.headD NUL ≠ NUL

/-- A well-formed qubit-index operand: a nonempty run of decimal digits. -/
def goodOp (d : List Char) : Prop := d ≠ [] ∧ d.all isDigitC = true

instance (g s : List Char) : Decidable (goodGate g s) := by
  unfold goodGate
  infer_instance

instance (d : List Char) : Decidable (goodOp d) := by
  unfold goodOp
  infer_instance

/-! ### Character-class and scanning lemmas -/

theorem gateChar_not_space {c : Char} (h : isGateChar c = true) : isSpaceC c = false := by
  rw [Bool.eq_false_iff]
  intro hs
  simp only [isGateChar, isAlphaC, Bool.or_eq_true, Bool.and_eq_true,
    decide_eq_true_eq, beq_iff_eq] at h
  simp only [isSpaceC, Bool.or_eq_true, Bool.and_eq_true, decide_eq_true_eq,
    beq_iff_eq] at hs
  rcases h with (⟨h1, h2⟩ | ⟨h1, h2⟩) | h
  · rcases hs with ⟨h9, h13⟩ | h32 <;> omega
  · rcases hs with ⟨h9, h13⟩ | h32 <;> omega
  · subst h; revert hs; decide

theorem gateChar_ne_NUL {c : Char} (h : isGateChar c = true) : c ≠ NUL := by
  intro hc
  subst hc
  revert h
  decide

theorem eatWS_cons_of_not {c : Char} {t : List Char} (h : isSpaceC c = false) :
    eatWS (c :: t) = c :: t := by
  simp [eatWS, List.dropWhile_cons, h]

theorem eatWS_cons_of_space {c : Char} {t : List Char} (h : isSpaceC c = true) :
    eatWS (c :: t) = eatWS t := by
  simp [eatWS, List.dropWhile_cons, h]

theorem tw_all_append {p : Char → Bool} {l : List Char} (r : List Char)
    (h : l.all p = true) : (l ++ r).takeWhile p = l ++ r.takeWhile p := by
  induction l with
  | nil => simp
  | cons c cs ih =>
    simp only [List.all_cons, Bool.and_eq_true] at h
    simp [List.takeWhile_cons, h.1, ih h.2]

theorem dw_all_append {p : Char → Bool} {l : List Char} (r : List Char)
    (h : l.all p = true) : (l ++ r).dropWhile p = r.dropWhile p := by
  induction l with
  | nil => simp
  | cons c cs ih =>
    simp only [List.all_cons, Bool.and_eq_true] at h
    simp [List.dropWhile_cons, h.1, ih h.2]

/-! ### Lemmas about the keyword matcher -/

theorem matchChars_iff {ref inp : List Char} :
    matchChars inp ref = true ↔ ∃ t, ref ++ t = inp := by
  induction ref generalizing inp with
  | nil => simp [matchChars]
  | cons r rs ih =>
    cases inp with
    | nil => simp [matchChars]
    | cons i is =>
      by_cases hri : r = i
      · subst hri
        simp [matchChars, ih]
      · simp [matchChars, hri]

theorem isPrefB_iff {a b : List Char} : isPrefB a b = true ↔ ∃ t, a ++ t = b := by
  induction a generalizing b with
  | nil => simp [isPrefB]
  | cons x xs ih =>
    cases b with
    | nil => simp [isPrefB]
    | cons y ys =>
      by_cases hxy : x = y
      · subst hxy
        simp [isPrefB, ih]
      · simp [isPrefB, hxy]

theorem matchKw_iff {inp ref : List Char} {n : Nat} :
    matchKw inp n ref = true ↔ ref ≠ [] ∧ (∃ t, ref ++ t = inp) ∧ n = ref.length := by
  by_cases h : ref = []
  · subst h; simp [matchKw]
  · simp [matchKw, h, Bool.and_eq_true, beq_iff_eq, matchChars_iff]

theorem matchKw_nil_ref {inp : List Char} {n : Nat} : matchKw inp n [] = false := rfl

theorem matchKw_self {s : List Char} (h : s ≠ []) : matchKw s s.length s = true :=
  matchKw_iff.mpr ⟨h, ⟨[], List.append_nil s⟩, rfl⟩

theorem matchKw_eq_of {a b : List Char} (h : matchKw a a.length b = true) : b = a := by
  obtain ⟨hne, ⟨t, ht⟩, hlen⟩ := matchKw_iff.mp h
  have hlt : t.length = 0 := by
    have := congrArg List.length ht
    simp only [List.length_append] at this
    omega
  have : t = [] := List.eq_nil_of_length_eq_zero hlt
  subst this
  simpa using ht

theorem matchKw_ne {a b : List Char} (h : b ≠ a) : matchKw a a.length b = false := by
  rw [Bool.eq_false_iff]
  intro htrue
  exact h (matchKw_eq_of htrue)

theorem pref_take {kw u g t : List Char} (hu : kw ++ u = g ++ ' ' :: t) :
    ∃ v, kw.take (g.length + 1) ++ v = g ++ [' '] := by
  have hform : g ++ ' ' :: t = (g ++ [' ']) ++ t := by simp
  rw [hform] at hu
  have hlen : (g ++ [' ']).length = g.length + 1 := by simp
  have h2 : List.take (g.length + 1) (kw ++ u)
      = List.take (g.length + 1) ((g ++ [' ']) ++ t) := congrArg _ hu
  have h3 : List.take (g.length + 1) ((g ++ [' ']) ++ t) = g ++ [' '] := by
    rw [← hlen, List.take_left]
  rw [List.take_append_eq_append_take, h3] at h2
  exact ⟨_, h2⟩

theorem matchKw_gate_text {g t kw : List Char} {n : Nat}
    (h : isPrefB (kw.take (g.length + 1)) (g ++ [' ']) = false) :
    matchKw (g ++ ' ' :: t) n kw = false := by
  rw [Bool.eq_false_iff]
  intro htrue
  obtain ⟨hne, ⟨u, hu⟩, rfl⟩ := matchKw_iff.mp htrue
  obtain ⟨v, hv⟩ := pref_take hu
  rw [Bool.eq_false_iff] at h
  exact h (isPrefB_iff.mpr ⟨v, hv⟩)

/-! ### Evaluating the qubit reader and the operand loop on statement text -/

theorem exists_cons_of_ne_nil {l : List Char} (h : l ≠ []) : ∃ c cs, l = c :: cs := by
  cases l with
  | nil => exact absurd rfl h
  | cons c cs => exact ⟨c, cs, rfl⟩

theorem toQubit_space (s : List Char) : toQubit (' ' :: s) = toQubit s := by
  simp only [toQubit]
  rw [eatWS_cons_of_space (by decide)]

theorem toQubit_digits {d rest : List Char} (hne : d ≠ [])
    (hall : d.all isDigitC = true) :
    toQubit ('q' :: '[' :: (d ++ ']' :: rest)) = .ok (d, rest) := by
  obtain ⟨c, cs, rfl⟩ := exists_cons_of_ne_nil hne
  have hc : isDigitC c = true := List.all_eq_true.mp hall c (by simp)
  have hall2 : cs.all isDigitC = true := by
    simp only [List.all_cons, Bool.and_eq_true] at hall
    exact hall.2
  have hrb : isDigitC ']' = false := by decide
  have htw : List.takeWhile isDigitC (c :: (cs ++ ']' :: rest)) = c :: cs := by
    rw [List.takeWhile_cons, hc, if_pos rfl, tw_all_append _ hall2]
    simp [List.takeWhile_cons, hrb]
  have hdw : List.dropWhile isDigitC (c :: (cs ++ ']' :: rest)) = ']' :: rest := by
    rw [List.dropWhile_cons]
    simp only [hc, if_pos, dw_all_append _ hall2]
    simp [List.dropWhile_cons, hrb]
  simp only [toQubit]
  rw [eatWS_cons_of_not (by decide)]
  simp [htw, hdw, hc]

theorem goodGate_translate {g s : List Char} (hg : goodGate g s) :
    ∃ i, translate_gate g = .ok i ∧ GATE_STIM.getD i [] = s := by
  obtain ⟨-, -, -, -, h5, -⟩ := hg
  cases htg : translate_gate g with
  | error e => rw [htg] at h5; simp [Except.toOption] at h5
  | ok i =>
    rw [htg] at h5
    simp [Except.toOption] at h5
    exact ⟨i, rfl, by simpa [List.getD] using h5⟩

theorem goodGate_kw {g s : List Char} (hg : goodGate g s) :
    ∀ kw ∈ kwNames, isPrefB (kw.take (g.length + 1)) (g ++ [' ']) = false := by
  obtain ⟨-, -, -, h4, -, -⟩ := hg
  intro kw hkw
  have := List.all_eq_true.mp h4 kw hkw
  simpa using this

theorem gate_inputs_stmt {d : List Char} (rest out : List Char) (fuel : Nat)
    (hd : goodOp d) :
    gate_inputs (fuel + 2) (' ' :: 'q' :: '[' :: (d ++ ']' :: ';' :: rest)) out
      = .ok (';' :: rest, out ++ d) := by
  obtain ⟨hne, hall⟩ := hd
  have hq : toQubit ('q' :: '[' :: (d ++ ']' :: ';' :: rest)) = .ok (d, ';' :: rest) :=
    toQubit_digits hne hall
  have harr : matchKw (' ' :: 'q' :: '[' :: (d ++ ']' :: ';' :: rest)) 2 arrowChars
      = false := by
    simp [matchKw, arrowChars, matchChars]
  have hsemi : isSpaceC ';' = false := by decide
  simp [gate_inputs, harr, hq, eatWS_cons_of_not hsemi]

/-- Evaluating `read_gate` on one well-formed single-operand statement
`<g> q[<d>];` followed by arbitrary text: the cursor ends after the `';'`,
`prev` becomes the resolved Stim mnemonic, and the output grows by the
run-compaction emission followed by the operand digits. -/
theorem read_gate_stmt {g s : List Char} (d rest prev out : List Char)
    (hg : goodGate g s) (hd : goodOp d) :
    read_gate (g ++ ' ' :: 'q' :: '[' :: (d ++ ']' :: ';' :: rest)) prev out
      = .ok (rest, s,
          (if matchKw s s.length prev then out ++ [' ']
           else (if prev.headD NUL = NUL then out else out ++ crlf) ++ s ++ [' ']) ++ d) := by
  obtain ⟨i, hti, hsi⟩ := goodGate_translate hg
  obtain ⟨hne, hall, hlen16, -, -, -⟩ := hg
  obtain ⟨c, cs, rfl⟩ := exists_cons_of_ne_nil hne
  have hcg : isGateChar c = true := List.all_eq_true.mp hall c (by simp)
  have hcsAll : cs.all isGateChar = true := by
    simp only [List.all_cons, Bool.and_eq_true] at hall
    exact hall.2
  have hspg : isGateChar ' ' = false := by decide
  have htw : List.takeWhile isGateChar
      (c :: (cs ++ ' ' :: 'q' :: '[' :: (d ++ ']' :: ';' :: rest))) = c :: cs := by
    rw [List.takeWhile_cons, hcg, if_pos rfl, tw_all_append _ hcsAll]
    simp [List.takeWhile_cons, hspg]
  have hdrop : List.drop (c :: cs).length
      (c :: (cs ++ ' ' :: 'q' :: '[' :: (d ++ ']' :: ';' :: rest)))
      = ' ' :: 'q' :: '[' :: (d ++ ']' :: ';' :: rest) := by
    simp [List.drop_left]
  have hfuel : (' ' :: 'q' :: '[' :: (d ++ ']' :: ';' :: rest)).length + 1
      = d.length + rest.length + 4 + 2 := by
    simp only [List.length_cons, List.length_append]
    omega
  simp only [read_gate, List.cons_append]
  rw [eatWS_cons_of_not (gateChar_not_space hcg)]
  rw [htw]
  rw [if_neg (Nat.not_le.mpr hlen16)]
  rw [hti]
  simp only [hsi, hdrop, hfuel]
  rw [gate_inputs_stmt _ _ _ hd]
  simp

/-- One iteration of the main loop on a well-formed gate statement: the five
directive keywords all fail to match, the statement is translated by
`read_gate`, and the loop continues after the `';'` with `prev` set to the
resolved Stim mnemonic. -/
theorem loop_gate_step {g s : List Char} (d rest prev out mq : List Char) (fuel : Nat)
    (hg : goodGate g s) (hd : goodOp d) :
    to_stim_loop (fuel + 1) (g ++ ' ' :: 'q' :: '[' :: (d ++ ']' :: ';' :: rest)) prev out mq
      = to_stim_loop fuel rest s
          ((if matchKw s s.length prev then out ++ [' ']
            else (if prev.headD NUL = NUL then out else out ++ crlf) ++ s ++ [' ']) ++ d) mq := by
  have hkw := goodGate_kw hg
  have hrg := read_gate_stmt d rest prev out hg hd
  obtain ⟨hne, hall, -, -, -, -⟩ := hg
  obtain ⟨c, cs, rfl⟩ := exists_cons_of_ne_nil hne
  have hcg : isGateChar c = true := List.all_eq_true.mp hall c (by simp)
  have h1 : matchKw ((c :: cs) ++ ' ' :: 'q' :: '[' :: (d ++ ']' :: ';' :: rest))
      8 kwOPENQASM = false :=
    matchKw_gate_text (hkw kwOPENQASM (by simp [kwNames]))
  have h2 : matchKw ((c :: cs) ++ ' ' :: 'q' :: '[' :: (d ++ ']' :: ';' :: rest))
      4 kwqreg = false :=
    matchKw_gate_text (hkw kwqreg (by simp [kwNames]))
  have h3 : matchKw ((c :: cs) ++ ' ' :: 'q' :: '[' :: (d ++ ']' :: ';' :: rest))
      4 kwcreg = false :=
    matchKw_gate_text (hkw kwcreg (by simp [kwNames]))
  have h4 : matchKw ((c :: cs) ++ ' ' :: 'q' :: '[' :: (d ++ ']' :: ';' :: rest))
      7 kwinclude = false :=
    matchKw_gate_text (hkw kwinclude (by simp [kwNames]))
  have h5 : matchKw ((c :: cs) ++ ' ' :: 'q' :: '[' :: (d ++ ']' :: ';' :: rest))
      4 kwgate = false :=
    matchKw_gate_text (hkw kwgate (by simp [kwNames]))
  simp only [List.cons_append] at h1 h2 h3 h4 h5 hrg ⊢
  simp only [to_stim_loop]
  rw [if_neg (by simp : ¬(c :: (cs ++ ' ' :: 'q' :: '[' :: (d ++ ']' :: ';' :: rest))
    = ([] : List Char)))]
  rw [eatWS_cons_of_not (gateChar_not_space hcg)]
  simp only [List.headD_cons]
  rw [if_neg (gateChar_ne_NUL hcg)]
  rw [h1, h2, h3, h4, h5]
  simp only [if_false, Bool.false_eq_true]
  rw [hrg]

theorem buildStmts_cons (p : List Char × List Char) (l : List (List Char × List Char)) :
    buildStmts (p :: l) = mkStmt p.1 p.2 ++ buildStmts l := by
  simp [buildStmts]

theorem mkStmt_append (g d rest : List Char) :
    mkStmt g d ++ rest = g ++ ' ' :: 'q' :: '[' :: (d ++ ']' :: ';' :: rest) := by
  simp [mkStmt]

theorem mkStmt_one_le (g d : List Char) : 1 ≤ (mkStmt g d).length := by
  simp only [mkStmt, List.length_append, List.length_cons]
  omega

theorem buildStmts_length_ge (l : List (List Char × List Char)) :
    l.length ≤ (buildStmts l).length := by
  induction l with
  | nil => simp [buildStmts]
  | cons p t ih =>
    rw [buildStmts_cons]
    have h1 := mkStmt_one_le p.1 p.2
    simp only [List.length_append, List.length_cons]
    omega

/-- Run-compaction, steady state: with `prev` already equal to the common
Stim mnemonic `s`, a sequence of well-formed statements all resolving to `s`
extends the output by one space-prefixed operand group per statement and
never starts a new line. -/
theorem loop_gate_run {s : List Char} (hsne : s ≠ [])
    (l : List (List Char × List Char)) :
    ∀ (fuel : Nat) (out mq : List Char),
      (∀ p ∈ l, goodGate p.1 s ∧ goodOp p.2) →
      l.length < fuel →
      to_stim_loop fuel (buildStmts l) s out mq
        = .ok (out ++ (l.map (fun p => ' ' :: p.2)).join, mq) := by
  induction l with
  | nil =>
    intro fuel out mq hgood hlt
    obtain ⟨f, rfl⟩ : ∃ f, fuel = f + 1 := ⟨fuel - 1, by omega⟩
    simp [buildStmts, to_stim_loop]
  | cons p t ih =>
    intro fuel out mq hgood hlt
    obtain ⟨f, rfl⟩ : ∃ f, fuel = f + 1 := ⟨fuel - 1, by omega⟩
    rw [buildStmts_cons, mkStmt_append]
    have hp := hgood p (by simp)
    rw [loop_gate_step _ _ _ _ _ _ hp.1 hp.2]
    rw [matchKw_self hsne]
    have hlt2 : t.length < f := by
      simp only [List.length_cons] at hlt
      omega
    rw [if_pos rfl, ih f (out ++ [' '] ++ p.2) mq (fun q hq => hgood q (by simp [hq])) hlt2]
    simp

/-- C4: for every `k ≥ 1`, a source sequence of `k` consecutive gate
statements that resolve to the same Stim mnemonic and have distinct
single-qubit operands produces exactly one output line: the mnemonic once,
followed by one space-separated operand token per statement, ending in the
single line terminator; and two consecutive gate statements with different
Stim mnemonics always produce two separate output lines. -/
theorem C4_thm :
    (∀ (s : List Char) (l : List (List Char × List Char)),
        l ≠ [] →
        (∀ p ∈ l, goodGate p.1 s ∧ goodOp p.2) →
        (l.map Prod.snd).Pairwise (· ≠ ·) →
        to_stim (buildStmts l)
          = .ok (s ++ (l.map (fun p => ' ' :: p.2)).join ++ crlf, [])) ∧
    (∀ (g1 s1 d1 g2 s2 d2 : List Char),
        goodGate g1 s1 → goodOp d1 → goodGate g2 s2 → goodOp d2 → s1 ≠ s2 →
        to_stim (buildStmts [(g1, d1), (g2, d2)])
          = .ok (s1 ++ ' ' :: d1 ++ crlf ++ (s2 ++ ' ' :: d2 ++ crlf), [])) := by
  constructor
  · intro s l hne hgood hpw
    cases l with
    | nil => exact absurd rfl hne
    | cons p t =>
      have hp := hgood p (by simp)
      have hhead : s.headD NUL ≠ NUL := hp.1.2.2.2.2.2
      have hsne : s ≠ [] := by
        intro h
        subst h
        simp at hhead
      unfold to_stim
      rw [buildStmts_cons, mkStmt_append]
      rw [loop_gate_step _ _ _ _ _ _ hp.1 hp.2]
      simp only [matchKw_nil_ref, Bool.false_eq_true, if_false, List.headD_nil,
        List.nil_append]
      simp only [if_true]
      have hfuel : t.length
          < (p.1 ++ ' ' :: 'q' :: '[' :: (p.2 ++ ']' :: ';' :: buildStmts t)).length := by
        have := buildStmts_length_ge t
        simp only [List.length_append, List.length_cons]
        omega
      rw [loop_gate_run hsne t _ _ _ (fun q hq => hgood q (by simp [hq])) hfuel]
      simp [List.append_assoc]
  · intro g1 s1 d1 g2 s2 d2 hg1 hd1 hg2 hd2 h12
    have hh1 : s1.headD NUL ≠ NUL := hg1.2.2.2.2.2
    have hbuild : buildStmts [(g1, d1), (g2, d2)]
        = g1 ++ ' ' :: 'q' :: '[' ::
            (d1 ++ ']' :: ';' :: (g2 ++ ' ' :: 'q' :: '[' :: (d2 ++ ']' :: ';' :: []))) := by
      simp [buildStmts, mkStmt]
    unfold to_stim
    rw [hbuild]
    rw [loop_gate_step _ _ _ _ _ _ hg1 hd1]
    simp only [matchKw_nil_ref, Bool.false_eq_true, if_false, List.headD_nil,
      List.nil_append]
    simp only [if_true]
    have hf : (g1 ++ ' ' :: 'q' :: '[' ::
          (d1 ++ ']' :: ';' :: (g2 ++ ' ' :: 'q' :: '[' :: (d2 ++ ']' :: ';' :: [])))).length
        = ((g1 ++ ' ' :: 'q' :: '[' ::
            (d1 ++ ']' :: ';' :: (g2 ++ ' ' :: 'q' :: '[' :: (d2 ++ ']' :: ';' :: [])))).length
              - 2) + 1 + 1 := by
      simp only [List.length_append, List.length_cons]
      omega
    rw [hf]
    rw [loop_gate_step _ _ _ _ _ _ hg2 hd2]
    rw [matchKw_ne h12]
    simp only [Bool.false_eq_true, if_false]
    rw [if_neg hh1]
    simp [to_stim_loop, List.append_assoc]

/-- Witness for C4: two fused `h` statements produce the single line
`H 0 1`, and an `h` statement followed by an `x` statement produce the two
lines `H 0` and `X 1`. -/
theorem C4_thm_witness :
    to_stim (buildStmts [(['h'], ['0']), (['h'], ['1'])])
        = .ok ("H 0 1\r\n".toList, []) ∧
    to_stim (buildStmts [(['h'], ['0']), (['x'], ['1'])])
        = .ok ("H 0\r\nX 1\r\n".toList, []) := by
  constructor
  · have h := C4_thm.1 ['H'] [(['h'], ['0']), (['h'], ['1'])]
      (by decide) (by decide) (by decide)
    exact h.trans (by decide)
  · have h := C4_thm.2 ['h'] ['H'] ['0'] ['x'] ['X'] ['1']
      (by decide) (by decide) (by decide) (by decide) (by decide)
    exact h.trans (by decide)

/-- C5: a `qreg q[<digits>];` directive appends the header line
`#<digits>` (terminated like every line) to the output at exactly the
current point of the output stream, records the digit text as the qubit
count, and resumes the loop after discarding the rest of the directive
line — for any surrounding context, previous state, and prior output. -/
theorem C5_thm (d rest prev out mq : List Char) (fuel : Nat)
    (hne : d ≠ []) (hall : d.all isDigitC = true) :
    to_stim_loop (fuel + 1)
        ('q' :: 'r' :: 'e' :: 'g' :: ' ' :: 'q' :: '[' :: (d ++ ']' :: ';' :: rest))
        prev out mq
      = to_stim_loop fuel (eatLine (';' :: rest)) prev (out ++ '#' :: (d ++ crlf)) d := by
  have h1 : matchKw
      ('q' :: 'r' :: 'e' :: 'g' :: ' ' :: 'q' :: '[' :: (d ++ ']' :: ';' :: rest))
      8 kwOPENQASM = false := by
    simp [matchKw, kwOPENQASM, matchChars]
  have h2 : matchKw
      ('q' :: 'r' :: 'e' :: 'g' :: ' ' :: 'q' :: '[' :: (d ++ ']' :: ';' :: rest))
      4 kwqreg = true := by
    simp [matchKw, kwqreg, matchChars]
  have h3 : toQubit (' ' :: 'q' :: '[' :: (d ++ ']' :: ';' :: rest)) = .ok (d, ';' :: rest) := by
    rw [toQubit_space]
    exact toQubit_digits hne hall
  simp only [to_stim_loop]
  rw [if_neg (by simp)]
  rw [eatWS_cons_of_not (by decide)]
  simp only [List.headD_cons]
  rw [if_neg (by decide)]
  rw [h1]
  simp only [Bool.false_eq_true, if_false]
  rw [h2]
  rw [if_pos rfl]
  simp only [List.drop_succ_cons, List.drop_zero]
  rw [h3]

/-- Witness for C5: `qreg q[5];` inside a concrete file emits the header
`#5` at the current output position and records the count text `5`. -/
theorem C5_thm_witness :
    to_stim_loop 20
        ('q' :: 'r' :: 'e' :: 'g' :: ' ' :: 'q' :: '[' ::
          (['5'] ++ ']' :: ';' :: ('\n' :: "h q[0];".toList))) [] [] []
      = to_stim_loop 19 (eatLine (';' :: ('\n' :: "h q[0];".toList))) []
          ([] ++ '#' :: (['5'] ++ crlf)) ['5'] :=
  C5_thm ['5'] ('\n' :: "h q[0];".toList) [] [] [] 19 (by decide) (by decide)

/-- C7: when the input starts with the `OPENQASM` keyword and the version
reader returns the exact value `n * 10^(-k)`, the loop aborts with
`UnsupportedVersion` whenever that value differs from 2.0 — before anything
after the directive is looked at — and continues with the rest of the line
discarded when the value equals 2.0. -/
theorem C7_thm :
    (∀ (rest r1 prev out mq : List Char) (fuel n k : Nat),
        toFloat rest = .ok (n, k, r1) → n ≠ 2 * 10 ^ k →
        to_stim_loop (fuel + 1) (kwOPENQASM ++ rest) prev out mq
          = .error (.UnsupportedVersion n k)) ∧
    (∀ (rest r1 prev out mq : List Char) (fuel n k : Nat),
        toFloat rest = .ok (n, k, r1) → n = 2 * 10 ^ k →
        to_stim_loop (fuel + 1) (kwOPENQASM ++ rest) prev out mq
          = to_stim_loop fuel (eatLine r1) prev out mq) := by
  have hmk : ∀ rest : List Char,
      matchKw ('O' :: 'P' :: 'E' :: 'N' :: 'Q' :: 'A' :: 'S' :: 'M' :: rest)
        8 kwOPENQASM = true := by
    intro rest
    simp [matchKw, kwOPENQASM, matchChars]
  constructor
  · intro rest r1 prev out mq fuel n k htf hne
    simp only [kwOPENQASM, List.cons_append, List.nil_append]
    simp only [to_stim_loop]
    rw [if_neg (by simp)]
    rw [eatWS_cons_of_not (by decide)]
    simp only [List.headD_cons]
    rw [if_neg (by decide)]
    rw [hmk rest, if_pos rfl]
    simp only [List.drop_succ_cons, List.drop_zero]
    rw [htf]
    simp [hne]
  · intro rest r1 prev out mq fuel n k htf heq
    simp only [kwOPENQASM, List.cons_append, List.nil_append]
    simp only [to_stim_loop]
    rw [if_neg (by simp)]
    rw [eatWS_cons_of_not (by decide)]
    simp only [List.headD_cons]
    rw [if_neg (by decide)]
    rw [hmk rest, if_pos rfl]
    simp only [List.drop_succ_cons, List.drop_zero]
    rw [htf]
    simp [heq]

/-- Witness for C7: `OPENQASM 3.0;` aborts with `UnsupportedVersion`
carrying the exact value 3.0 (digit accumulator 30, one character after the
point), regardless of the gate statement that follows; and `OPENQASM 2.0;`
passes the check. -/
theorem C7_thm_witness :
    to_stim_loop 25 (kwOPENQASM ++ " 3.0;\nh q[0];".toList) [] [] []
      = .error (.UnsupportedVersion 30 1) ∧
    to_stim_loop 25 (kwOPENQASM ++ " 2.0;\nh q[0];".toList) [] [] []
      = to_stim_loop 24 (eatLine (";\nh q[0];".toList)) [] [] [] := by
  constructor
  · exact C7_thm.1 (" 3.0;\nh q[0];".toList) (";\nh q[0];".toList) [] [] [] 24 30 1
      (by decide) (by decide)
  · exact C7_thm.2 (" 2.0;\nh q[0];".toList) (";\nh q[0];".toList) [] [] [] 24 20 1
      (by decide) (by decide)

/-- C9: directive dispatch only checks that the keyword's characters appear
verbatim at the cursor, so any statement whose text begins with `gate` —
including `gates q[0];` or `gatefoo q[0];` — is discarded as a `gate`
directive line and never reaches the gate catalog. -/
theorem C9_thm :
    (∀ (rest prev out mq : List Char) (fuel : Nat),
        to_stim_loop (fuel + 1) ('g' :: 'a' :: 't' :: 'e' :: rest) prev out mq
          = to_stim_loop fuel (eatLine ('g' :: 'a' :: 't' :: 'e' :: rest)) prev out mq) ∧
    to_stim ("gates q[0];\nh q[1];".toList) = .ok ("H 1\r\n".toList, []) ∧
    to_stim ("gatefoo q[0];".toList) = .ok ("\r\n".toList, []) := by
  refine ⟨?_, by decide, by decide⟩
  intro rest prev out mq fuel
  simp only [to_stim_loop]
  rw [if_neg (by simp)]
  rw [eatWS_cons_of_not (by decide)]
  simp only [List.headD_cons]
  rw [if_neg (by decide)]
  rw [(by simp [matchKw, kwOPENQASM, matchChars] :
    matchKw ('g' :: 'a' :: 't' :: 'e' :: rest) 8 kwOPENQASM = false)]
  rw [(by simp [matchKw, kwqreg, matchChars] :
    matchKw ('g' :: 'a' :: 't' :: 'e' :: rest) 4 kwqreg = false)]
  rw [(by simp [matchKw, kwcreg, matchChars] :
    matchKw ('g' :: 'a' :: 't' :: 'e' :: rest) 4 kwcreg = false)]
  rw [(by simp [matchKw, kwinclude, matchChars] :
    matchKw ('g' :: 'a' :: 't' :: 'e' :: rest) 7 kwinclude = false)]
  rw [(by simp [matchKw, kwgate, matchChars] :
    matchKw ('g' :: 'a' :: 't' :: 'e' :: rest) 4 kwgate = true)]
  simp

/-- C2 counterexample: two `h` statements separated by a `creg` directive
line are fused into the single output line `H 0 1` — not emitted as the two
fresh lines `H 0` and `H 1` that a reset of the last-emitted-mnemonic state
would produce. -/
theorem C2_cex :
    to_stim ("h q[0];creg c[2];\nh q[1];".toList)
      = .ok ("H 0 1\r\n".toList, []) ∧
    to_stim ("h q[0];creg c[2];\nh q[1];".toList)
      ≠ .ok ("H 0\r\nH 1\r\n".toList, []) := by
  constructor
  · decide
  · decide

/-- C2 amended: the last-emitted-mnemonic state is never reset by a
directive line — a `creg` line passes `prev` through unchanged — so two gate
statements with the same mnemonic separated by a directive line are still
fused by run-compaction into one output line. -/
theorem C2_amended_thm :
    (∀ (rest prev out mq : List Char) (fuel : Nat),
        to_stim_loop (fuel + 1) ('c' :: 'r' :: 'e' :: 'g' :: rest) prev out mq
          = to_stim_loop fuel (eatLine ('c' :: 'r' :: 'e' :: 'g' :: rest)) prev out mq) ∧
    to_stim ("h q[0];creg c[2];\nh q[1];".toList) = .ok ("H 0 1\r\n".toList, []) := by
  refine ⟨?_, by decide⟩
  intro rest prev out mq fuel
  simp only [to_stim_loop]
  rw [if_neg (by simp)]
  rw [eatWS_cons_of_not (by decide)]
  simp only [List.headD_cons]
  rw [if_neg (by decide)]
  rw [(by simp [matchKw, kwOPENQASM, matchChars] :
    matchKw ('c' :: 'r' :: 'e' :: 'g' :: rest) 8 kwOPENQASM = false)]
  rw [(by simp [matchKw, kwqreg, matchChars] :
    matchKw ('c' :: 'r' :: 'e' :: 'g' :: rest) 4 kwqreg = false)]
  rw [(by simp [matchKw, kwcreg, matchChars] :
    matchKw ('c' :: 'r' :: 'e' :: 'g' :: rest) 4 kwcreg = true)]
  simp

/-! ### Characterizing the catalog lookup and the qubit reader -/

theorem eatWS_idem (s : List Char) : eatWS (eatWS s) = eatWS s := by
  induction s with
  | nil => rfl
  | cons c t ih =>
    cases hsp : isSpaceC c with
    | true =>
      rw [eatWS_cons_of_space hsp]
      exact ih
    | false =>
      rw [eatWS_cons_of_not hsp, eatWS_cons_of_not hsp]

theorem toQubit_eatWS (s : List Char) : toQubit (eatWS s) = toQubit s := by
  simp only [toQubit, eatWS_idem]

theorem eatWS_head_false {s : List Char} {a : Char} {u : List Char}
    (h : eatWS s = a :: u) : isSpaceC a = false := by
  induction s with
  | nil => simp [eatWS] at h
  | cons c t ih =>
    cases hsp : isSpaceC c with
    | true =>
      rw [eatWS_cons_of_space hsp] at h
      exact ih h
    | false =>
      rw [eatWS_cons_of_not hsp] at h
      injection h with h1 h2
      rwa [← h1]

theorem tw_all (p : Char → Bool) (l : List Char) : (l.takeWhile p).all p = true := by
  induction l with
  | nil => simp
  | cons c t ih =>
    cases hc : p c with
    | true => simp [List.takeWhile_cons, hc, ih]
    | false => simp [List.takeWhile_cons, hc]

theorem scanLen_eq_iff {r g : List Char} :
    scanLen r g = g.length ↔ ∃ t, g ++ t = r := by
  induction g generalizing r with
  | nil => cases r <;> simp [scanLen]
  | cons c cs ih =>
    cases r with
    | nil =>
      simp only [scanLen, List.length_cons]
      constructor
      · intro h; omega
      · rintro ⟨t, ht⟩; exact absurd ht (by simp)
    | cons x xs =>
      simp only [scanLen, List.length_cons, List.cons_append]
      by_cases hxc : x = c
      · subst hxc
        rw [if_pos rfl]
        constructor
        · intro h
          have h2 : scanLen xs cs = cs.length := by omega
          obtain ⟨t, ht⟩ := ih.mp h2
          exact ⟨t, by rw [ht]⟩
        · rintro ⟨t, ht⟩
          injection ht with h1 h2
          have := ih.mpr ⟨t, h2⟩
          omega
      · rw [if_neg hxc]
        constructor
        · intro h; omega
        · rintro ⟨t, ht⟩
          injection ht with h1 h2
          exact absurd h1.symm hxc

theorem findGate_none_iff {cat : List (List Char)} {g : List Char} :
    findGate cat g = none ↔ ∀ r ∈ cat, ¬(scanLen r g = g.length) := by
  induction cat with
  | nil => simp [findGate]
  | cons r rs ih =>
    simp only [findGate]
    by_cases h : scanLen r g = g.length
    · simp [h]
    · simp [h, ih]

theorem findGate_some_mem {cat : List (List Char)} {g : List Char} {i : Nat}
    (h : findGate cat g = some i) : ∃ r ∈ cat, scanLen r g = g.length := by
  induction cat generalizing i with
  | nil => simp [findGate] at h
  | cons r rs ih =>
    simp only [findGate] at h
    by_cases hs : scanLen r g = g.length
    · exact ⟨r, by simp, hs⟩
    · rw [if_neg hs] at h
      cases ho : findGate rs g with
      | none => rw [ho] at h; simp at h
      | some j =>
        obtain ⟨r2, hm, hsc⟩ := ih ho
        exact ⟨r2, by simp [hm], hsc⟩

/-- C1 counterexample: the strict prefixes `m` and `sw` of the catalog
entries `measure` and `swap` are accepted by the lookup (returning those
entries' indices) even though they are not themselves catalog names, instead
of raising the unknown-gate error as the claim states. -/
theorem C1_cex :
    translate_gate ['m'] = .ok 12 ∧ ¬ (['m'] ∈ GATE_QASM) ∧
    translate_gate ['s', 'w'] = .ok 10 ∧ ¬ (['s', 'w'] ∈ GATE_QASM) := by
  decide

/-- C1 amended: the lookup succeeds exactly when the mnemonic occurs
verbatim as a prefix (proper or not) of some catalog entry — returning the
first such entry — and raises the unknown-gate error carrying the offending
text exactly when the mnemonic is a prefix of no entry. -/
theorem C1_amended_thm :
    ∀ g : List Char,
      ((∃ i, translate_gate g = .ok i) ↔ ∃ r ∈ GATE_QASM, isPrefB g r = true) ∧
      ((∀ r ∈ GATE_QASM, isPrefB g r = false) →
        translate_gate g = .error (.UnknownGate g)) := by
  intro g
  have hiff : ∀ r : List Char, scanLen r g = g.length ↔ isPrefB g r = true := by
    intro r
    rw [scanLen_eq_iff, isPrefB_iff]
  constructor
  · constructor
    · rintro ⟨i, hi⟩
      unfold translate_gate at hi
      cases hf : findGate GATE_QASM g with
      | none => rw [hf] at hi; simp at hi
      | some j =>
        obtain ⟨r, hm, hsc⟩ := findGate_some_mem hf
        exact ⟨r, hm, (hiff r).mp hsc⟩
    · rintro ⟨r, hm, hp⟩
      unfold translate_gate
      cases hf : findGate GATE_QASM g with
      | some j => exact ⟨j, rfl⟩
      | none =>
        have := findGate_none_iff.mp hf r hm
        exact absurd ((hiff r).mpr hp) this
  · intro hno
    unfold translate_gate
    cases hf : findGate GATE_QASM g with
    | some j =>
      obtain ⟨r, hm, hsc⟩ := findGate_some_mem hf
      have hfalse := hno r hm
      have htrue := (hiff r).mp hsc
      rw [hfalse] at htrue
      simp at htrue
    | none => rfl

/-- Witness for C1 amended: `m` is a prefix of the entry `measure`, so its
lookup succeeds; `q` is a prefix of no entry, so its lookup fails with the
unknown-gate error carrying `q`. -/
theorem C1_amended_thm_witness :
    (∃ i, translate_gate ['m'] = .ok i) ∧
    translate_gate ['q'] = .error (.UnknownGate ['q']) := by
  constructor
  · exact (C1_amended_thm ['m']).1.mpr ⟨"measure".toList, by decide, by decide⟩
  · exact (C1_amended_thm ['q']).2 (by decide)

/-- C8: the qubit reader succeeds exactly when, after optional leading
whitespace, the input is the literal `q`, `[`, a nonempty maximal run of
decimal digits, and `]`; on success it returns the digit characters verbatim
together with the input after the `]`; in every failing case the error is a
`MalformedQubitRef` naming the expected token and the character found. -/
theorem C8_thm :
    (∀ s d rest : List Char,
        toQubit s = .ok (d, rest) ↔
          (eatWS s = 'q' :: '[' :: (d ++ ']' :: rest) ∧ d ≠ [] ∧
            d.all isDigitC = true)) ∧
    (∀ s : List Char, (∃ e, toQubit s = .error e) →
        ∃ m c, toQubit s = .error (.MalformedQubitRef m c)) := by
  constructor
  · intro s d rest
    constructor
    · intro h
      rw [← toQubit_eatWS] at h
      cases he : eatWS s with
      | nil =>
        rw [he] at h
        have hq : ¬(NUL = 'q') := by decide
        simp [toQubit, eatWS, hq] at h
      | cons a u1 =>
        have hns : isSpaceC a = false := eatWS_head_false he
        rw [he] at h
        simp only [toQubit] at h
        rw [eatWS_cons_of_not hns] at h
        simp only [List.headD_cons, List.tail_cons] at h
        by_cases ha : a = 'q'
        case neg => rw [if_neg ha] at h; simp at h
        case pos =>
          subst ha
          rw [if_pos rfl] at h
          cases u1 with
          | nil =>
            rw [if_neg (by decide : ¬((([] : List Char)).headD NUL = '['))] at h
            simp at h
          | cons b u2 =>
            simp only [List.headD_cons, List.tail_cons] at h
            by_cases hb : b = '['
            case neg => rw [if_neg hb] at h; simp at h
            case pos =>
              subst hb
              rw [if_pos rfl] at h
              by_cases hd0 : isDigitC (u2.headD NUL) = true
              case neg => rw [if_neg hd0] at h; simp at h
              case pos =>
                rw [if_pos hd0] at h
                by_cases hrb : (u2.dropWhile isDigitC).headD NUL = ']'
                case neg => rw [if_neg hrb] at h; simp at h
                case pos =>
                  rw [if_pos hrb] at h
                  simp only [Except.ok.injEq, Prod.mk.injEq] at h
                  obtain ⟨hds, hrest⟩ := h
                  have hu2 : u2 = d ++ ']' :: rest := by
                    have hsplit := List.takeWhile_append_dropWhile
                      (p := isDigitC) (l := u2)
                    rw [hds] at hsplit
                    cases hdw : u2.dropWhile isDigitC with
                    | nil =>
                      rw [hdw] at hrb
                      exact absurd hrb (by decide)
                    | cons e0 tl =>
                      rw [hdw] at hrb hrest hsplit
                      simp only [List.headD_cons] at hrb
                      simp only [List.tail_cons] at hrest
                      rw [hrb] at hsplit
                      rw [hrest] at hsplit
                      exact hsplit.symm
                  refine ⟨by rw [hu2], ?_, ?_⟩
                  · rw [← hds]
                    cases hu2c : u2 with
                    | nil =>
                      rw [hu2c] at hd0
                      exact absurd hd0 (by decide)
                    | cons c0 t0 =>
                      rw [hu2c] at hd0
                      simp only [List.headD_cons] at hd0
                      simp [List.takeWhile_cons, hd0]
                  · rw [← hds]
                    exact tw_all isDigitC u2
    · rintro ⟨he, hne, hall⟩
      rw [← toQubit_eatWS, he]
      exact toQubit_digits hne hall
  · rintro s ⟨e, he⟩
    simp only [toQubit] at he ⊢
    by_cases h1 : (eatWS s).headD NUL = 'q'
    case neg => exact ⟨_, _, by rw [if_neg h1]⟩
    case pos =>
      rw [if_pos h1] at he ⊢
      by_cases h2 : (eatWS s).tail.headD NUL = '['
      case neg => exact ⟨_, _, by rw [if_neg h2]⟩
      case pos =>
        rw [if_pos h2] at he ⊢
        by_cases h3 : isDigitC ((eatWS s).tail.tail.headD NUL) = true
        case neg => exact ⟨_, _, by rw [if_neg h3]⟩
        case pos =>
          rw [if_pos h3] at he ⊢
          by_cases h4 : (List.dropWhile isDigitC (eatWS s).tail.tail).headD NUL = ']'
          case neg => exact ⟨_, _, by rw [if_neg h4]⟩
          case pos =>
            rw [if_pos h4] at he
            exact absurd he (by simp)

/-- Witness for C8: `q[07]x` parses to the verbatim digit text `07` with the
cursor after the `]`, and the non-reference `x` fails with a
`MalformedQubitRef` error. -/
theorem C8_thm_witness :
    toQubit ("q[07]x".toList) = .ok (['0', '7'], ['x']) ∧
    (∃ m c, toQubit ("x".toList) = .error (.MalformedQubitRef m c)) := by
  constructor
  · exact (C8_thm.1 ("q[07]x".toList) ['0', '7'] ['x']).mpr (by decide)
  · exact C8_thm.2 ("x".toList) ⟨.MalformedQubitRef "q" 'x', by decide⟩

/-- C3 (the claim's bound fails on the code): the 4-byte input `m;i;`
translates without error to the 8-byte output `M \r\nI \r\n`, which exceeds
both the input length and the input-sized output buffer (`size + 1` bytes),
overrunning it. -/
theorem C3_overflow_thm :
    to_stim ("m;i;".toList) = .ok ("M \r\nI \r\n".toList, []) ∧
    ("m;i;".toList).length + 1 < ("M \r\nI \r\n".toList).length := by
  decide

/-- C6: the unknown mnemonic `t` aborts the translation with `UnknownGate`
carrying the offending text, and an erroring translation never also yields
an output — the result type carries no output bytes alongside an error. -/
theorem C6_thm :
    to_stim ("t q[0];".toList) = .error (.UnknownGate ['t']) ∧
    (∀ (input : List Char) (e : Err), to_stim input = .error e →
        ∀ r, to_stim input ≠ .ok r) := by
  constructor
  · decide
  · intro input e he r hr
    rw [he] at hr
    exact Except.noConfusion hr

/-- Witness for C6: the erroring input `t q[0];` yields no output pair. -/
theorem C6_thm_witness :
    to_stim ("t q[0];".toList) ≠ .ok ([], []) :=
  C6_thm.2 ("t q[0];".toList) (.UnknownGate ['t']) (by decide) ([], [])

/-- C10: translation is deterministic — two runs on equal input buffers
return the same result, output bytes and qubit-count text alike. -/
theorem C10_thm : ∀ s t : List Char, s = t → to_stim s = to_stim t := by
  intro s t h
  rw [h]

/-- Witness for C10: two runs on the same concrete buffer agree. -/
theorem C10_thm_witness :
    to_stim ("h q[0];".toList) = to_stim ("h q[0];".toList) :=
  C10_thm ("h q[0];".toList) ("h q[0];".toList) rfl
